import Mathlib

/-!
Shallow embedding of the TrustShield core engine
(`src/local-business-app/js/app.js`) and verification of its
specification claims.

JavaScript numbers are modelled as real numbers, with `Option ℝ` standing
for a JS number that may be `NaN` (`none` models `NaN`; it also models the
`undefined` read of a missing cached field, which behaves like `NaN` in all
the arithmetic below).  In every division reachable in this code a zero
denominator is the length of a collection over which the numerator also
sums, so the only zero-denominator case is `0/0 = NaN`; `jdiv` therefore
returns `none` whenever the denominator is zero.  `Math.sqrt` of a negative
number is `NaN` in JS, hence the guard in `jsqrt`.

Mutation of a business record (the derived cache fields written by
`calculateTrustScore`) is modelled by explicit state passing: the stateful
functions return the updated `Business` alongside their value.  The
process-wide `globalAverage` variable read by `calculateTrustScore` is
passed as an explicit parameter `g`.
-/

namespace TrustShield

/-- A JS number that may be NaN (`none`). -/
abbrev JsNum := Option ℝ

noncomputable section

/-- JS `+` (NaN-propagating). -/
def jadd : JsNum → JsNum → JsNum
  | some x, some y => some (x + y)
  | _, _ => none

/-- JS `-` (NaN-propagating). -/
def jsub : JsNum → JsNum → JsNum
  | some x, some y => some (x - y)
  | _, _ => none

/-- JS `*` (NaN-propagating; note `NaN * 0 = NaN` in JS, matching `none`). -/
def jmul : JsNum → JsNum → JsNum
  | some x, some y => some (x * y)
  | _, _ => none

/-- JS `/`: NaN-propagating, and a zero denominator gives NaN (`0/0` is the
only zero-denominator case reachable in this program, see the header). -/
def jdiv : JsNum → JsNum → JsNum
  | some x, some y => if y = 0 then none else some (x / y)
  | _, _ => none

/-- JS unary minus. -/
def jneg : JsNum → JsNum
  | some x => some (-x)
  | none => none

/-- JS `Math.exp` (`Math.exp(NaN) = NaN`). -/
def jexp : JsNum → JsNum
  | some x => some (Real.exp x)
  | none => none

/-- JS `Math.sqrt` (`NaN` on negative input and on `NaN`). -/
def jsqrt : JsNum → JsNum
  | some x => if x < 0 then none else some (Real.sqrt x)
  | none => none

/-- JS `Math.min` (returns `NaN` if either argument is `NaN`). -/
def jmin : JsNum → JsNum → JsNum
  | some x, some y => some (min x y)
  | _, _ => none

/-- JS `Math.max` (returns `NaN` if either argument is `NaN`). -/
def jmax : JsNum → JsNum → JsNum
  | some x, some y => some (max x y)
  | _, _ => none

/-- A rating `{score, date}`; the date is the numeric timestamp that
`new Date(r.date)` yields, which is all the comparator uses. -/
@[ext]
structure Rating where
  score : ℤ
  date : ℤ
deriving DecidableEq

/-- A business record.  `rawAverage`, `entropy` and `finalTrust` are the
derived cache fields written by `calculateTrustScore`; `none` models the
field being absent (`undefined`) before the first evaluation. -/
@[ext]
structure Business where
  name : String
  category : String
  ratings : List Rating
  rawAverage : Option ℝ
  entropy : Option ℝ
  finalTrust : Option ℝ
deriving DecidableEq

/-- Bayesian prior weight (`const m = 15`). -/
def m : ℝ := 15

/-- `counts[k]` after `ratings.forEach(r=>counts[r-1]++)`: the number of
scores `s` with `s - 1 = k`.  (For scores outside `1..5` the JS code would
touch slots outside the five buckets; every claim below concerns scores in
`1..5`, where this count is exact.) -/
def bucketCount (scores : List ℤ) (k : ℕ) : ℕ :=
  scores.countP (fun s => decide (s = (k : ℤ) + 1))

/-- The Shannon-entropy accumulation loop of `calculateTrustScore`:
over the five buckets, every nonzero bucket with probability `p = c/v`
contributes `-(p * Math.log(p))`. -/
def entropyOf (scores : List ℤ) : ℝ :=
  ∑ k ∈ Finset.range 5,
    (if 0 < bucketCount scores k then
      -(((bucketCount scores k : ℝ) / (scores.length : ℝ)) *
        Real.log ((bucketCount scores k : ℝ) / (scores.length : ℝ)))
     else 0)

/-- `const R = ratings.reduce((a,b)=>a+b,0)/v`: the raw average. -/
def rawAverageOf (scores : List ℤ) : ℝ :=
  ((scores.foldl (· + ·) 0 : ℤ) : ℝ) / (scores.length : ℝ)

/-- `const bayes = (v/(v+m))*R + (m/(v+m))*globalAverage`. -/
def bayesOf (g : ℝ) (v : ℕ) (R : ℝ) : ℝ :=
  ((v : ℝ) / ((v : ℝ) + m)) * R + (m / ((v : ℝ) + m)) * g

/-- `const normalized = entropy/Math.log(5)`. -/
def entropyNormalizedOf (scores : List ℤ) : ℝ :=
  entropyOf scores / Real.log 5

/-- `const score = (bayes/5)*80 + normalized*20`: the pre-rounding trust
score of `calculateTrustScore`. -/
def trustValue (g : ℝ) (scores : List ℤ) : ℝ :=
  (bayesOf g scores.length (rawAverageOf scores) / 5) * 80 +
    entropyNormalizedOf scores * 20

/-- `function calculateTrustScore(b)`: returns `Math.round(score)` and the
business with the cache fields written; on zero ratings it returns `0`
before any field is written.  `g` is the process-wide `globalAverage`. -/
def calculateTrustScore (g : ℝ) (b : Business) : ℤ × Business :=
  let scores := b.ratings.map (fun r => r.score)
  if scores.length = 0 then (0, b) else
    (round (trustValue g scores),
     { b with rawAverage := some (rawAverageOf scores),
              entropy := some (entropyNormalizedOf scores),
              finalTrust := some (trustValue g scores) })

/-- `function calculateVolatility(b)`: population standard deviation of the
scores; on zero ratings both divisions are `0/0 = NaN`. -/
def calculateVolatility (b : Business) : JsNum :=
  let scores := b.ratings.map (fun r => r.score)
  let avg := jdiv (some ((scores.foldl (· + ·) 0 : ℤ) : ℝ))
                  (some (scores.length : ℝ))
  let variance :=
    jdiv (scores.foldl
            (fun (sacc : JsNum) (r : ℤ) =>
              jadd sacc (jmul (jsub (some (r : ℝ)) avg)
                              (jsub (some (r : ℝ)) avg)))
            (some 0))
         (some (scores.length : ℝ))
  jsqrt variance

/-- The feature vector returned by `extractFeatures`. -/
structure Features where
  fiveStarRatio : JsNum
  volatility : JsNum
  entropy : JsNum
  recentFiveRatio : JsNum
deriving DecidableEq

/-- `function extractFeatures(b)`.  `[...b.ratings].sort(cmp)` copies the
ratings and stable-sorts the copy ascending by date (the ES2019+ `sort` is
stable; `mergeSort` is the stable sort); `.slice(-10)` keeps the last ten
elements.  `b.entropy` is the cached field, `undefined` (`none`) if
`calculateTrustScore` has not cached it. -/
def extractFeatures (b : Business) : Features :=
  let scores := b.ratings.map (fun r => r.score)
  let total := scores.length
  let fiveStarRatio :=
    jdiv (some ((scores.filter (fun s => decide (s = 5))).length : ℝ))
         (some (total : ℝ))
  let volatility := calculateVolatility b
  let entropy := b.entropy
  let sorted := b.ratings.mergeSort (fun r s => decide (r.date ≤ s.date))
  let recent := sorted.drop (sorted.length - 10)
  let recentFiveRatio :=
    if 0 < recent.length then
      jdiv (some ((recent.filter (fun r => decide (r.score = 5))).length : ℝ))
           (some (recent.length : ℝ))
    else some 0
  ⟨fiveStarRatio, volatility, entropy, recentFiveRatio⟩

/-- `function neuralNetworkPredict(b)`: runs `calculateTrustScore` (for its
cache side effect), extracts features, then evaluates the fixed-weight
two-layer formula, sigmoid and clamp. -/
def neuralNetworkPredict (g : ℝ) (b : Business) : JsNum × Business :=
  let b1 := (calculateTrustScore g b).2
  let f := extractFeatures b1
  let hidden1 :=
    jadd (jadd (jmul f.fiveStarRatio (some 0.8))
               (jmul f.recentFiveRatio (some 1.2)))
         (jmul (jsub (some 1) f.entropy) (some 0.6))
  let hidden2 :=
    jadd (jmul hidden1 (some 0.7))
         (jmul (jsub (some 0.5) f.volatility) (some 0.9))
  let output := jdiv (some 1) (jadd (some 1) (jexp (jneg hidden2)))
  (jmin (jmax output (some 0)) (some 1), b1)

/-- `function computeGlobalAverage()`: flattens every rating score across
the dataset and divides the sum by the count (`0/0 = NaN` on a dataset with
zero ratings). -/
def computeGlobalAverage (ds : List Business) : JsNum :=
  let all := (ds.map (fun b => b.ratings.map (fun r => r.score))).flatten
  jdiv (some ((all.foldl (· + ·) 0 : ℤ) : ℝ)) (some (all.length : ℝ))

/-- The per-business evaluation sequence of `renderBusinesses`:
`trust = calculateTrustScore(b); deepAI = neuralNetworkPredict(b)` on the
same (mutated) record; returns both values and the final record state. -/
def scoreBusiness (g : ℝ) (b : Business) : (ℤ × JsNum) × Business :=
  let t := calculateTrustScore g b
  let p := neuralNetworkPredict g t.2
  ((t.1, p.1), p.2)

/-- The spec's fixed-weight two-layer formula (§4.5), written from the
spec's words over a real-valued feature vector, for comparison with
`neuralNetworkPredict`:
`hidden1 = fiveStarRatio*0.8 + recentFiveRatio*1.2 + (1-entropy)*0.6`;
`hidden2 = hidden1*0.7 + (0.5-volatility)*0.9`;
`output = 1/(1+e^-hidden2)`; `result = clamp(output, 0, 1)`. -/
def specFraudFormula (fiveStarRatio recentFiveRatio entropy volatility : ℝ) : ℝ :=
  let hidden1 := fiveStarRatio * 0.8 + recentFiveRatio * 1.2 + (1 - entropy) * 0.6
  let hidden2 := hidden1 * 0.7 + (0.5 - volatility) * 0.9
  let output := 1 / (1 + Real.exp (-hidden2))
  min (max output 0) 1

/-! ### Evaluation lemmas for the JS-number operations -/

@[simp] theorem jadd_some (x y : ℝ) : jadd (some x) (some y) = some (x + y) := rfl

@[simp] theorem jadd_none_left (a : JsNum) : jadd none a = none := rfl

@[simp] theorem jadd_none_right (a : JsNum) : jadd a none = none := by
  cases a <;> rfl

@[simp] theorem jsub_some (x y : ℝ) : jsub (some x) (some y) = some (x - y) := rfl

@[simp] theorem jsub_none_left (a : JsNum) : jsub none a = none := rfl

@[simp] theorem jsub_none_right (a : JsNum) : jsub a none = none := by
  cases a <;> rfl

@[simp] theorem jmul_some (x y : ℝ) : jmul (some x) (some y) = some (x * y) := rfl

@[simp] theorem jmul_none_left (a : JsNum) : jmul none a = none := rfl

@[simp] theorem jmul_none_right (a : JsNum) : jmul a none = none := by
  cases a <;> rfl

theorem jdiv_some_of_ne (x : ℝ) {y : ℝ} (h : y ≠ 0) :
    jdiv (some x) (some y) = some (x / y) := by
  simp [jdiv, h]

@[simp] theorem jdiv_some_zero (x : ℝ) : jdiv (some x) (some 0) = none := by
  simp [jdiv]

@[simp] theorem jdiv_none_left (a : JsNum) : jdiv none a = none := rfl

@[simp] theorem jdiv_none_right (a : JsNum) : jdiv a none = none := by
  cases a <;> rfl

@[simp] theorem jneg_some (x : ℝ) : jneg (some x) = some (-x) := rfl

@[simp] theorem jneg_none : jneg none = none := rfl

@[simp] theorem jexp_some (x : ℝ) : jexp (some x) = some (Real.exp x) := rfl

@[simp] theorem jexp_none : jexp none = none := rfl

theorem jsqrt_some_of_nonneg {x : ℝ} (h : 0 ≤ x) :
    jsqrt (some x) = some (Real.sqrt x) := by
  simp [jsqrt, not_lt.mpr h]

@[simp] theorem jsqrt_none : jsqrt none = none := rfl

@[simp] theorem jmin_some (x y : ℝ) : jmin (some x) (some y) = some (min x y) := rfl

@[simp] theorem jmin_none_left (a : JsNum) : jmin none a = none := rfl

@[simp] theorem jmin_none_right (a : JsNum) : jmin a none = none := by
  cases a <;> rfl

@[simp] theorem jmax_some (x y : ℝ) : jmax (some x) (some y) = some (max x y) := rfl

@[simp] theorem jmax_none_left (a : JsNum) : jmax none a = none := rfl

@[simp] theorem jmax_none_right (a : JsNum) : jmax a none = none := by
  cases a <;> rfl

/-! ### Structural lemmas about `calculateTrustScore` -/

theorem calculateTrustScore_nil (g : ℝ) (b : Business) (h : b.ratings = []) :
    calculateTrustScore g b = (0, b) := by
  simp [calculateTrustScore, h]

theorem calculateTrustScore_ne_nil (g : ℝ) (b : Business) (h : b.ratings ≠ []) :
    calculateTrustScore g b =
      (round (trustValue g (b.ratings.map (fun r => r.score))),
       { b with
          rawAverage := some (rawAverageOf (b.ratings.map (fun r => r.score))),
          entropy := some (entropyNormalizedOf (b.ratings.map (fun r => r.score))),
          finalTrust := some (trustValue g (b.ratings.map (fun r => r.score))) }) := by
  have hv : (b.ratings.map (fun r => r.score)).length ≠ 0 := by
    simpa [List.length_eq_zero] using h
  simp [calculateTrustScore, hv, h]

theorem calculateTrustScore_snd_fields (g : ℝ) (b : Business) :
    ((calculateTrustScore g b).2).name = b.name ∧
    ((calculateTrustScore g b).2).category = b.category ∧
    ((calculateTrustScore g b).2).ratings = b.ratings := by
  by_cases h : b.ratings = []
  · rw [calculateTrustScore_nil g b h]
    exact ⟨rfl, rfl, rfl⟩
  · rw [calculateTrustScore_ne_nil g b h]
    exact ⟨rfl, rfl, rfl⟩

theorem calculateTrustScore_idem (g : ℝ) (b : Business) :
    calculateTrustScore g ((calculateTrustScore g b).2) =
      ((calculateTrustScore g b).1, (calculateTrustScore g b).2) := by
  by_cases h : b.ratings = []
  · have e := calculateTrustScore_nil g b h
    rw [e]
    simpa using e
  · have e := calculateTrustScore_ne_nil g b h
    rw [e]
    have h2 : ({ b with
        rawAverage := some (rawAverageOf (b.ratings.map (fun r => r.score))),
        entropy := some (entropyNormalizedOf (b.ratings.map (fun r => r.score))),
        finalTrust := some (trustValue g (b.ratings.map (fun r => r.score)))
        : Business }).ratings = b.ratings := rfl
    rw [calculateTrustScore_ne_nil g _ (by rw [h2]; exact h)]

theorem neuralNetworkPredict_snd (g : ℝ) (b : Business) :
    (neuralNetworkPredict g b).2 = (calculateTrustScore g b).2 := rfl

/-! ### Arithmetic lemmas: averages, histogram, entropy -/

theorem avg_le_bounds (l : List ℤ) (hne : l ≠ [])
    (h : ∀ s ∈ l, 1 ≤ s ∧ s ≤ 5) :
    1 ≤ ((l.foldl (· + ·) 0 : ℤ) : ℝ) / (l.length : ℝ) ∧
    ((l.foldl (· + ·) 0 : ℤ) : ℝ) / (l.length : ℝ) ≤ 5 := by
  have hlen : 0 < l.length := List.length_pos.mpr hne
  have hf : l.foldl (· + ·) 0 = l.sum := List.sum_eq_foldl.symm
  have hlow : (l.length : ℤ) ≤ l.sum := by
    have := List.card_nsmul_le_sum l (1 : ℤ) (fun x hx => (h x hx).1)
    simpa using this
  have hhigh : l.sum ≤ (l.length : ℤ) * 5 := by
    have := List.sum_le_card_nsmul l (5 : ℤ) (fun x hx => (h x hx).2)
    simpa [nsmul_eq_mul] using this
  have hlenR : (0 : ℝ) < (l.length : ℝ) := by exact_mod_cast hlen
  constructor
  · rw [hf, le_div_iff₀ hlenR, one_mul]
    exact_mod_cast hlow
  · rw [hf, div_le_iff₀ hlenR]
    have : (l.sum : ℝ) ≤ (l.length : ℝ) * 5 := by exact_mod_cast hhigh
    linarith

theorem bucketCount_le_length (scores : List ℤ) (k : ℕ) :
    bucketCount scores k ≤ scores.length :=
  List.countP_le_length _

theorem sum_ite_score (a : ℤ) (h1 : 1 ≤ a) (h5 : a ≤ 5) :
    ∑ k ∈ Finset.range 5, (if a = (k : ℤ) + 1 then 1 else 0) = 1 := by
  have hlt : (a - 1).toNat < 5 := by omega
  have ha : a = ((a - 1).toNat : ℤ) + 1 := by omega
  rw [Finset.sum_eq_single_of_mem (a - 1).toNat (Finset.mem_range.mpr hlt)]
  · rw [if_pos ha]
  · intro k _ hk
    have : ¬ a = (k : ℤ) + 1 := by omega
    rw [if_neg this]

theorem sum_bucketCount (scores : List ℤ)
    (h : ∀ s ∈ scores, 1 ≤ s ∧ s ≤ 5) :
    ∑ k ∈ Finset.range 5, bucketCount scores k = scores.length := by
  induction scores with
  | nil => simp [bucketCount]
  | cons a t ih =>
    have ha := h a (List.mem_cons_self a t)
    have ht : ∀ s ∈ t, 1 ≤ s ∧ s ≤ 5 := fun s hs => h s (List.mem_cons_of_mem a hs)
    have hc : ∀ k, bucketCount (a :: t) k =
        bucketCount t k + if a = (k : ℤ) + 1 then 1 else 0 := by
      intro k
      simp [bucketCount, List.countP_cons]
    simp only [hc]
    rw [Finset.sum_add_distrib, ih ht, sum_ite_score a ha.1 ha.2]
    simp

theorem entropyOf_nonneg (scores : List ℤ) : 0 ≤ entropyOf scores := by
  refine Finset.sum_nonneg fun k _ => ?_
  by_cases hc : 0 < bucketCount scores k
  · rw [if_pos hc]
    have hv : 0 < scores.length := lt_of_lt_of_le hc (bucketCount_le_length scores k)
    have hvR : (0 : ℝ) < (scores.length : ℝ) := by exact_mod_cast hv
    have hp0 : 0 ≤ (bucketCount scores k : ℝ) / (scores.length : ℝ) := by positivity
    have hp1 : (bucketCount scores k : ℝ) / (scores.length : ℝ) ≤ 1 := by
      rw [div_le_one hvR]
      exact_mod_cast bucketCount_le_length scores k
    have := Real.negMulLog_nonneg hp0 hp1
    simpa [Real.negMulLog, neg_mul] using this
  · rw [if_neg hc]

theorem entropyOf_le_log_five (scores : List ℤ) (hne : scores ≠ [])
    (h : ∀ s ∈ scores, 1 ≤ s ∧ s ≤ 5) :
    entropyOf scores ≤ Real.log 5 := by
  classical
  have hv0 : 0 < scores.length := List.length_pos.mpr hne
  have hvR : (0 : ℝ) < (scores.length : ℝ) := by exact_mod_cast hv0
  set t := (Finset.range 5).filter (fun k => 0 < bucketCount scores k) with ht
  have hsum_t : ∑ k ∈ t, bucketCount scores k = scores.length := by
    rw [ht, Finset.sum_filter_of_ne (fun k _ hk => Nat.pos_of_ne_zero hk)]
    exact sum_bucketCount scores h
  have hw1 : ∑ k ∈ t, (bucketCount scores k : ℝ) / (scores.length : ℝ) = 1 := by
    rw [← Finset.sum_div]
    rw [show ∑ k ∈ t, (bucketCount scores k : ℝ) = ((scores.length : ℕ) : ℝ) by
      exact_mod_cast congrArg (Nat.cast (R := ℝ)) hsum_t]
    exact div_self (ne_of_gt hvR)
  have hent : entropyOf scores =
      ∑ k ∈ t, -((bucketCount scores k : ℝ) / (scores.length : ℝ) *
        Real.log ((bucketCount scores k : ℝ) / (scores.length : ℝ))) := by
    rw [entropyOf, ht, Finset.sum_filter]
  have h₀ : ∀ k ∈ t, 0 ≤ (bucketCount scores k : ℝ) / (scores.length : ℝ) :=
    fun k _ => by positivity
  have hposc : ∀ k ∈ t, 0 < (bucketCount scores k : ℝ) / (scores.length : ℝ) := by
    intro k hk
    rw [ht, Finset.mem_filter] at hk
    have : (0 : ℝ) < (bucketCount scores k : ℝ) := by exact_mod_cast hk.2
    positivity
  have hmem : ∀ k ∈ t,
      ((bucketCount scores k : ℝ) / (scores.length : ℝ))⁻¹ ∈ Set.Ioi (0 : ℝ) :=
    fun k hk => Set.mem_Ioi.mpr (inv_pos.mpr (hposc k hk))
  have hjen := (strictConcaveOn_log_Ioi.concaveOn).le_map_sum h₀ hw1 hmem
  have hL : ∑ k ∈ t,
      ((bucketCount scores k : ℝ) / (scores.length : ℝ)) •
        Real.log (((bucketCount scores k : ℝ) / (scores.length : ℝ))⁻¹) =
      entropyOf scores := by
    rw [hent]
    refine Finset.sum_congr rfl fun k _ => ?_
    rw [smul_eq_mul, Real.log_inv, mul_neg]
  have hR : ∑ k ∈ t,
      ((bucketCount scores k : ℝ) / (scores.length : ℝ)) •
        ((bucketCount scores k : ℝ) / (scores.length : ℝ))⁻¹ = (t.card : ℝ) := by
    rw [Finset.sum_congr rfl fun k hk =>
      (by rw [smul_eq_mul, mul_inv_cancel₀ (ne_of_gt (hposc k hk))] :
        ((bucketCount scores k : ℝ) / (scores.length : ℝ)) •
          ((bucketCount scores k : ℝ) / (scores.length : ℝ))⁻¹ = 1)]
    simp
  rw [hL, hR] at hjen
  have hcard_pos : 0 < t.card := by
    rcases Finset.eq_empty_or_nonempty t with he | hne2
    · rw [he] at hsum_t
      simp at hsum_t
      omega
    · exact Finset.card_pos.mpr hne2
  exact le_trans hjen (Real.log_le_log (by exact_mod_cast hcard_pos)
    (by exact_mod_cast le_trans (Finset.card_filter_le _ _) (le_of_eq (Finset.card_range 5))))

theorem entropyNormalizedOf_nonneg (scores : List ℤ) :
    0 ≤ entropyNormalizedOf scores :=
  div_nonneg (entropyOf_nonneg scores) (Real.log_nonneg (by norm_num))

theorem entropyNormalizedOf_le_one (scores : List ℤ) (hne : scores ≠ [])
    (h : ∀ s ∈ scores, 1 ≤ s ∧ s ≤ 5) :
    entropyNormalizedOf scores ≤ 1 := by
  rw [entropyNormalizedOf, div_le_one (Real.log_pos (by norm_num))]
  exact entropyOf_le_log_five scores hne h

theorem bayesOf_bounds (g R : ℝ) (v : ℕ)
    (hg1 : 1 ≤ g) (hg5 : g ≤ 5) (hR1 : 1 ≤ R) (hR5 : R ≤ 5) :
    1 ≤ bayesOf g v R ∧ bayesOf g v R ≤ 5 := by
  have hva : (0 : ℝ) < (v : ℝ) + 15 := by positivity
  have ha : 0 ≤ (v : ℝ) / ((v : ℝ) + 15) := by positivity
  have hb : (0 : ℝ) ≤ 15 / ((v : ℝ) + 15) := by positivity
  have hab : (v : ℝ) / ((v : ℝ) + 15) + 15 / ((v : ℝ) + 15) = 1 := by
    field_simp
  have h1 : (v : ℝ) / ((v : ℝ) + 15) * 1 ≤ (v : ℝ) / ((v : ℝ) + 15) * R :=
    mul_le_mul_of_nonneg_left hR1 ha
  have h2 : 15 / ((v : ℝ) + 15) * 1 ≤ 15 / ((v : ℝ) + 15) * g :=
    mul_le_mul_of_nonneg_left hg1 hb
  have h3 : (v : ℝ) / ((v : ℝ) + 15) * R ≤ (v : ℝ) / ((v : ℝ) + 15) * 5 :=
    mul_le_mul_of_nonneg_left hR5 ha
  have h4 : 15 / ((v : ℝ) + 15) * g ≤ 15 / ((v : ℝ) + 15) * 5 :=
    mul_le_mul_of_nonneg_left hg5 hb
  rw [bayesOf, m]
  constructor <;> nlinarith [hab]

theorem round_bounds {x : ℝ} (h0 : 0 ≤ x) (h1 : x ≤ 100) :
    0 ≤ round x ∧ round x ≤ 100 := by
  rw [round_eq]
  constructor
  · exact Int.le_floor.mpr (by push_cast; linarith)
  · have : ⌊x + 1 / 2⌋ < 101 := Int.floor_lt.mpr (by push_cast; linarith)
    omega

/-! ### The fraud pipeline yields a defined value on non-empty ratings -/

theorem foldl_sq_some (A : ℝ) (l : List ℤ) (init : ℝ) :
    List.foldl
      (fun (sacc : JsNum) (r : ℤ) =>
        jadd sacc (jmul (jsub (some (r : ℝ)) (some A))
                        (jsub (some (r : ℝ)) (some A))))
      (some init) l =
    some (List.foldl
      (fun (s : ℝ) (r : ℤ) => s + ((r : ℝ) - A) * ((r : ℝ) - A)) init l) := by
  induction l generalizing init with
  | nil => rfl
  | cons a t ih =>
    rw [List.foldl_cons, List.foldl_cons]
    exact ih _

theorem foldl_sq_nonneg (A : ℝ) (l : List ℤ) (init : ℝ) (h : 0 ≤ init) :
    0 ≤ List.foldl
      (fun (s : ℝ) (r : ℤ) => s + ((r : ℝ) - A) * ((r : ℝ) - A)) init l := by
  induction l generalizing init with
  | nil => simpa using h
  | cons a t ih =>
    rw [List.foldl_cons]
    exact ih _ (add_nonneg h (mul_self_nonneg _))

theorem calculateVolatility_some (b : Business) (h : b.ratings ≠ []) :
    ∃ x : ℝ, calculateVolatility b = some x := by
  have hne : b.ratings.map (fun r => r.score) ≠ [] := by
    simpa using h
  have hlen : (b.ratings.map (fun r => r.score)).length ≠ 0 := by
    simpa [List.length_eq_zero] using hne
  have hlenR : ((b.ratings.map (fun r => r.score)).length : ℝ) ≠ 0 :=
    Nat.cast_ne_zero.mpr hlen
  rw [calculateVolatility]
  simp only [jdiv_some_of_ne _ hlenR, foldl_sq_some]
  rw [jsqrt_some_of_nonneg
    (div_nonneg (foldl_sq_nonneg _ _ _ le_rfl) (Nat.cast_nonneg _))]
  exact ⟨_, rfl⟩

theorem extractFeatures_some (b : Business) (e : ℝ) (h : b.ratings ≠ [])
    (he : b.entropy = some e) :
    ∃ fsr vol rfr : ℝ,
      extractFeatures b = ⟨some fsr, some vol, some e, some rfr⟩ := by
  obtain ⟨vl, hvl⟩ := calculateVolatility_some b h
  have hlen : (b.ratings.map (fun r => r.score)).length ≠ 0 := by
    simpa [List.length_eq_zero] using h
  have hlenR : ((b.ratings.map (fun r => r.score)).length : ℝ) ≠ 0 :=
    Nat.cast_ne_zero.mpr hlen
  have hrecpos :
      0 < ((b.ratings.mergeSort (fun r s => decide (r.date ≤ s.date))).drop
        ((b.ratings.mergeSort (fun r s => decide (r.date ≤ s.date))).length - 10)).length := by
    rw [List.length_drop, List.length_mergeSort]
    have : 0 < b.ratings.length := List.length_pos.mpr h
    omega
  have hrecR :
      (((b.ratings.mergeSort (fun r s => decide (r.date ≤ s.date))).drop
        ((b.ratings.mergeSort (fun r s => decide (r.date ≤ s.date))).length - 10)).length : ℝ)
        ≠ 0 :=
    Nat.cast_ne_zero.mpr (Nat.pos_iff_ne_zero.mp hrecpos)
  refine ⟨(((b.ratings.map (fun r => r.score)).filter
        (fun s => decide (s = 5))).length : ℝ) /
      ((b.ratings.map (fun r => r.score)).length : ℝ),
    vl,
    ((((b.ratings.mergeSort (fun r s => decide (r.date ≤ s.date))).drop
        ((b.ratings.mergeSort (fun r s => decide (r.date ≤ s.date))).length - 10)).filter
        (fun r => decide (r.score = 5))).length : ℝ) /
      (((b.ratings.mergeSort (fun r s => decide (r.date ≤ s.date))).drop
        ((b.ratings.mergeSort (fun r s => decide (r.date ≤ s.date))).length - 10)).length : ℝ),
    ?_⟩
  rw [extractFeatures]
  simp only [hvl, he, if_pos hrecpos, jdiv_some_of_ne _ hlenR,
    jdiv_some_of_ne _ hrecR]

theorem specFraudFormula_mem (a b c d : ℝ) :
    0 ≤ specFraudFormula a b c d ∧ specFraudFormula a b c d ≤ 1 :=
  ⟨le_min (le_max_right _ _) zero_le_one, min_le_right _ _⟩

theorem neuralNetworkPredict_some (g : ℝ) (b : Business) (h : b.ratings ≠ []) :
    ∃ fsr vol ent rfr : ℝ,
      extractFeatures ((calculateTrustScore g b).2) =
        ⟨some fsr, some vol, some ent, some rfr⟩ ∧
      (neuralNetworkPredict g b).1 = some (specFraudFormula fsr rfr ent vol) := by
  have hb1r : ((calculateTrustScore g b).2).ratings = b.ratings :=
    (calculateTrustScore_snd_fields g b).2.2
  have hb1e : ((calculateTrustScore g b).2).entropy =
      some (entropyNormalizedOf (b.ratings.map (fun r => r.score))) := by
    rw [calculateTrustScore_ne_nil g b h]
  obtain ⟨fsr, vol, rfr, hfeat⟩ :=
    extractFeatures_some ((calculateTrustScore g b).2) _ (by rw [hb1r]; exact h) hb1e
  refine ⟨fsr, vol, _, rfr, hfeat, ?_⟩
  rw [neuralNetworkPredict]
  simp only [hfeat, jadd_some, jsub_some, jmul_some, jneg_some, jexp_some]
  rw [jdiv_some_of_ne _ (by positivity :
    ((1 : ℝ) + Real.exp (-((fsr * 0.8 + rfr * 1.2 +
      (1 - entropyNormalizedOf (b.ratings.map (fun r => r.score))) * 0.6) * 0.7 +
      (0.5 - vol) * 0.9))) ≠ 0)]
  simp [specFraudFormula]

/-! ### Claim theorems -/

/-- C5: for every business (with at least one rating, so that the features
are real numbers), the fraud confidence returned by `neuralNetworkPredict`
is exactly the spec's fixed-weight two-layer formula — `hidden1 =
fiveStarRatio*0.8 + recentFiveRatio*1.2 + (1-entropy)*0.6`, `hidden2 =
hidden1*0.7 + (0.5-volatility)*0.9`, `output = 1/(1+e^-hidden2)`,
`result = clamp(output,0,1)` — applied to the features that
`extractFeatures` computes after `calculateTrustScore` has run. -/
theorem neuralNetworkPredict_matches_spec_formula (g : ℝ) (b : Business)
    (h : b.ratings ≠ []) :
    ∃ fsr vol ent rfr : ℝ,
      extractFeatures ((calculateTrustScore g b).2) =
        ⟨some fsr, some vol, some ent, some rfr⟩ ∧
      (neuralNetworkPredict g b).1 = some (specFraudFormula fsr rfr ent vol) :=
  neuralNetworkPredict_some g b h

/-- Witness for C5 at a concrete one-rating business. -/
theorem neuralNetworkPredict_matches_spec_formula_witness :
    (⟨"Corner Bistro", "food", [⟨5, 1⟩], none, none, none⟩ :
        Business).ratings ≠ [] ∧
    ∃ fsr vol ent rfr : ℝ,
      extractFeatures ((calculateTrustScore 3
          (⟨"Corner Bistro", "food", [⟨5, 1⟩], none, none, none⟩ :
            Business)).2) = ⟨some fsr, some vol, some ent, some rfr⟩ ∧
      (neuralNetworkPredict 3
          (⟨"Corner Bistro", "food", [⟨5, 1⟩], none, none, none⟩ :
            Business)).1 = some (specFraudFormula fsr rfr ent vol) :=
  ⟨by decide, neuralNetworkPredict_matches_spec_formula 3 _ (by decide)⟩

/-- C1: for every business with at least one rating whose scores lie in
`1..5`, and a global average computed by `computeGlobalAverage` from a
dataset with at least one rating, all scores in `1..5`, the trust score
lies in `[0, 100]` and the fraud confidence is a real number in `[0, 1]`. -/
theorem trustScore_fraudConfidence_bounds (ds : List Business) (b : Business)
    (g : ℝ) (hb : b.ratings ≠ [])
    (hbs : ∀ r ∈ b.ratings, 1 ≤ r.score ∧ r.score ≤ 5)
    (hds : (ds.map (fun x => x.ratings.map (fun r => r.score))).flatten ≠ [])
    (hdss : ∀ x ∈ ds, ∀ r ∈ x.ratings, 1 ≤ r.score ∧ r.score ≤ 5)
    (hg : computeGlobalAverage ds = some g) :
    (0 ≤ (calculateTrustScore g b).1 ∧ (calculateTrustScore g b).1 ≤ 100) ∧
    ∃ c : ℝ, (neuralNetworkPredict g b).1 = some c ∧ 0 ≤ c ∧ c ≤ 1 := by
  set all := (ds.map (fun x => x.ratings.map (fun r => r.score))).flatten
    with hall
  have hallmem : ∀ s ∈ all, 1 ≤ s ∧ s ≤ 5 := by
    intro s hs
    rw [hall] at hs
    rcases List.mem_flatten.mp hs with ⟨l, hl, hsl⟩
    rcases List.mem_map.mp hl with ⟨x, hx, rfl⟩
    rcases List.mem_map.mp hsl with ⟨r, hr, rfl⟩
    exact hdss x hx r hr
  have hlenall : ((all.length : ℕ) : ℝ) ≠ 0 :=
    Nat.cast_ne_zero.mpr (by simpa [List.length_eq_zero] using hds)
  have hgval : computeGlobalAverage ds =
      some (((all.foldl (· + ·) 0 : ℤ) : ℝ) / (all.length : ℝ)) := by
    rw [computeGlobalAverage]
    exact jdiv_some_of_ne _ hlenall
  have hgeq : g = ((all.foldl (· + ·) 0 : ℤ) : ℝ) / (all.length : ℝ) :=
    (Option.some.inj (hg.symm.trans hgval))
  have hgb := avg_le_bounds all hds hallmem
  have hg1 : 1 ≤ g := hgeq ▸ hgb.1
  have hg5 : g ≤ 5 := hgeq ▸ hgb.2
  set scores := b.ratings.map (fun r => r.score) with hsc
  have hscne : scores ≠ [] := by simpa [hsc] using hb
  have hscmem : ∀ s ∈ scores, 1 ≤ s ∧ s ≤ 5 := by
    intro s hs
    rcases List.mem_map.mp hs with ⟨r, hr, rfl⟩
    exact hbs r hr
  have hRb : 1 ≤ rawAverageOf scores ∧ rawAverageOf scores ≤ 5 := by
    rw [rawAverageOf]
    exact avg_le_bounds scores hscne hscmem
  have hBay := bayesOf_bounds g (rawAverageOf scores) scores.length
    hg1 hg5 hRb.1 hRb.2
  have hE0 := entropyNormalizedOf_nonneg scores
  have hE1 := entropyNormalizedOf_le_one scores hscne hscmem
  have hTv : 0 ≤ trustValue g scores ∧ trustValue g scores ≤ 100 := by
    rw [trustValue]
    constructor <;> nlinarith [hBay.1, hBay.2, hE0, hE1]
  have hround := round_bounds hTv.1 hTv.2
  have hfst : (calculateTrustScore g b).1 = round (trustValue g scores) :=
    congrArg Prod.fst (calculateTrustScore_ne_nil g b hb)
  constructor
  · rw [hfst]
    exact hround
  · obtain ⟨fsr, vol, ent, rfr, _, hnn⟩ := neuralNetworkPredict_some g b hb
    exact ⟨_, hnn, specFraudFormula_mem fsr rfr ent vol⟩

/-- Witness for C1 at a concrete one-business dataset. -/
theorem trustScore_fraudConfidence_bounds_witness :
    (0 ≤ (calculateTrustScore 3
        (⟨"Solo Cafe", "cafe", [⟨3, 1⟩], none, none, none⟩ : Business)).1 ∧
      (calculateTrustScore 3
        (⟨"Solo Cafe", "cafe", [⟨3, 1⟩], none, none, none⟩ : Business)).1
        ≤ 100) ∧
    ∃ c : ℝ, (neuralNetworkPredict 3
        (⟨"Solo Cafe", "cafe", [⟨3, 1⟩], none, none, none⟩ : Business)).1
        = some c ∧ 0 ≤ c ∧ c ≤ 1 :=
  trustScore_fraudConfidence_bounds
    [⟨"Solo Cafe", "cafe", [⟨3, 1⟩], none, none, none⟩]
    (⟨"Solo Cafe", "cafe", [⟨3, 1⟩], none, none, none⟩ : Business) 3
    (by decide) (by decide) (by decide) (by decide)
    (by rw [computeGlobalAverage]; norm_num [jdiv])

/-- C6: a business whose ratings contain each score `1..5` equally often
has normalized entropy exactly `1`; a non-empty business whose ratings are
all one identical score has normalized entropy exactly `0`. -/
theorem entropy_normalization_extremes :
    (∀ (b : Business) (k : ℕ), 0 < k →
      (∀ r ∈ b.ratings, 1 ≤ r.score ∧ r.score ≤ 5) →
      (∀ i ∈ Finset.range 5,
        bucketCount (b.ratings.map (fun r => r.score)) i = k) →
      entropyNormalizedOf (b.ratings.map (fun r => r.score)) = 1) ∧
    (∀ (b : Business) (s : ℤ), b.ratings ≠ [] → 1 ≤ s → s ≤ 5 →
      (∀ r ∈ b.ratings, r.score = s) →
      entropyNormalizedOf (b.ratings.map (fun r => r.score)) = 0) := by
  constructor
  · intro b k hk hrange hcount
    set scores := b.ratings.map (fun r => r.score) with hsc
    have hmem : ∀ s ∈ scores, 1 ≤ s ∧ s ≤ 5 := by
      intro s hs
      rcases List.mem_map.mp hs with ⟨r, hr, rfl⟩
      exact hrange r hr
    have hlen : scores.length = 5 * k := by
      have h1 := sum_bucketCount scores hmem
      rw [Finset.sum_congr rfl hcount] at h1
      simp at h1
      omega
    have hterm : ∀ i ∈ Finset.range 5,
        (if 0 < bucketCount scores i then
          -(((bucketCount scores i : ℝ) / (scores.length : ℝ)) *
            Real.log ((bucketCount scores i : ℝ) / (scores.length : ℝ)))
         else 0) = (1 / 5 : ℝ) * Real.log 5 := by
      intro i hi
      rw [hcount i hi, hlen, if_pos hk]
      have h5k : ((5 * k : ℕ) : ℝ) = 5 * (k : ℝ) := by push_cast; ring
      have hkR : (k : ℝ) ≠ 0 := Nat.cast_ne_zero.mpr hk.ne'
      have hp : (k : ℝ) / (5 * (k : ℝ)) = 1 / 5 := by
        field_simp
        ring
      rw [h5k, hp, one_div, Real.log_inv]
      ring
    rw [entropyNormalizedOf, entropyOf, Finset.sum_congr rfl hterm]
    have hlog5 : Real.log 5 ≠ 0 := ne_of_gt (Real.log_pos (by norm_num))
    rw [Finset.sum_const, Finset.card_range]
    rw [nsmul_eq_mul]
    field_simp
  · intro b s hne h1 h5 hall
    set scores := b.ratings.map (fun r => r.score) with hsc
    have hscne : scores ≠ [] := by simpa [hsc] using hne
    have hv : 0 < scores.length := List.length_pos.mpr hscne
    have hbc : ∀ i : ℕ, bucketCount scores i =
        if s = (i : ℤ) + 1 then scores.length else 0 := by
      intro i
      by_cases hcase : s = (i : ℤ) + 1
      · rw [if_pos hcase, bucketCount]
        rw [List.countP_eq_length.mpr]
        intro a ha
        rcases List.mem_map.mp ha with ⟨r, hr, rfl⟩
        simp [hall r hr, hcase]
      · rw [if_neg hcase, bucketCount]
        rw [List.countP_eq_zero.mpr]
        intro a ha
        rcases List.mem_map.mp ha with ⟨r, hr, rfl⟩
        simp [hall r hr, hcase]
    rw [entropyNormalizedOf, entropyOf, Finset.sum_eq_zero, zero_div]
    intro i _
    rw [hbc i]
    by_cases hcase : s = (i : ℤ) + 1
    · rw [if_pos hcase, if_pos hv]
      have : (scores.length : ℝ) / (scores.length : ℝ) = 1 :=
        div_self (Nat.cast_ne_zero.mpr hv.ne')
      rw [this, Real.log_one]
      ring
    · rw [if_neg hcase]
      norm_num

/-- Witness for C6: ratings `[1,2,3,4,5]` give normalized entropy `1`,
ratings `[4,4,4]` give normalized entropy `0`. -/
theorem entropy_normalization_extremes_witness :
    entropyNormalizedOf
      ((⟨"Five Corners", "market",
        [⟨1, 1⟩, ⟨2, 2⟩, ⟨3, 3⟩, ⟨4, 4⟩, ⟨5, 5⟩],
        none, none, none⟩ : Business).ratings.map (fun r => r.score)) = 1 ∧
    entropyNormalizedOf
      ((⟨"Steady Diner", "diner", [⟨4, 1⟩, ⟨4, 2⟩, ⟨4, 3⟩],
        none, none, none⟩ : Business).ratings.map (fun r => r.score)) = 0 :=
  ⟨entropy_normalization_extremes.1
      ⟨"Five Corners", "market",
        [⟨1, 1⟩, ⟨2, 2⟩, ⟨3, 3⟩, ⟨4, 4⟩, ⟨5, 5⟩], none, none, none⟩ 1
      (by norm_num) (by decide) (by decide),
   entropy_normalization_extremes.2
      ⟨"Steady Diner", "diner", [⟨4, 1⟩, ⟨4, 2⟩, ⟨4, 3⟩],
        none, none, none⟩ 4 (by decide) (by decide) (by decide) (by decide)⟩

/-- C7: `recentFiveRatio` is the five-star ratio over the window formed by
stable-sorting the ratings ascending by date and keeping the last 10; it is
`0` for a business with zero ratings; and when the ratings are already
date-sorted (ties broken by keeping the original order, which is exactly
what the stable sort does) the window is the last `min(length, 10)`
elements of the original sequence — in particular with 12 date-sorted
ratings only the chronologically last 10 contribute. -/
theorem recentFiveRatio_window :
    (∀ b : Business, b.ratings = [] →
      (extractFeatures b).recentFiveRatio = some 0) ∧
    (∀ b : Business, b.ratings ≠ [] →
      List.Pairwise (fun r s : Rating => r.date ≤ s.date) b.ratings →
      (extractFeatures b).recentFiveRatio =
        some ((((b.ratings.drop (b.ratings.length - 10)).filter
            (fun r => decide (r.score = 5))).length : ℝ) /
          ((b.ratings.drop (b.ratings.length - 10)).length : ℝ))) := by
  constructor
  · intro b hb
    simp [extractFeatures, hb]
  · intro b hb hsort
    have hps : List.Pairwise
        (fun r s : Rating => decide (r.date ≤ s.date) = true) b.ratings :=
      hsort.imp fun h => decide_eq_true h
    have hms : b.ratings.mergeSort (fun r s => decide (r.date ≤ s.date)) =
        b.ratings :=
      List.mergeSort_of_sorted hps
    have hlen3 : 0 < (b.ratings.drop (b.ratings.length - 10)).length := by
      rw [List.length_drop]
      have := List.length_pos.mpr hb
      omega
    rw [extractFeatures]
    simp only [hms, if_pos hlen3,
      jdiv_some_of_ne _ (Nat.cast_ne_zero.mpr hlen3.ne')]

/-- Witness for C7: 12 date-sorted ratings whose only five-star entries are
the two chronologically oldest; the recent window drops exactly those two,
so the ratio is `0` even though the lifetime five-star ratio is `2/12`. -/
theorem recentFiveRatio_window_witness :
    (extractFeatures
      (⟨"Busy Bistro", "bistro",
        [⟨5, 1⟩, ⟨5, 2⟩, ⟨3, 3⟩, ⟨3, 4⟩, ⟨3, 5⟩, ⟨3, 6⟩, ⟨3, 7⟩, ⟨3, 8⟩,
         ⟨3, 9⟩, ⟨3, 10⟩, ⟨3, 11⟩, ⟨3, 12⟩],
        none, none, none⟩ : Business)).recentFiveRatio = some 0 := by
  have h := recentFiveRatio_window.2
    (⟨"Busy Bistro", "bistro",
      [⟨5, 1⟩, ⟨5, 2⟩, ⟨3, 3⟩, ⟨3, 4⟩, ⟨3, 5⟩, ⟨3, 6⟩, ⟨3, 7⟩, ⟨3, 8⟩,
       ⟨3, 9⟩, ⟨3, 10⟩, ⟨3, 11⟩, ⟨3, 12⟩],
      none, none, none⟩ : Business) (by decide) (by decide)
  rw [h]
  norm_num

/-- C2: for the business with ratings `[5,5,5,5,5]` and `globalAverage = 3`,
`calculateTrustScore` computes raw average `R = 5`, Bayesian-smoothed value
`bayes = 3.5`, normalized entropy `0`, and returns the rounded score `56`. -/
theorem worked_example_five_fives :
    rawAverageOf [5, 5, 5, 5, 5] = 5 ∧
    bayesOf 3 5 5 = 3.5 ∧
    entropyNormalizedOf [5, 5, 5, 5, 5] = 0 ∧
    (calculateTrustScore 3
      (⟨"Sunrise Bakery", "bakery",
        [⟨5, 1⟩, ⟨5, 2⟩, ⟨5, 3⟩, ⟨5, 4⟩, ⟨5, 5⟩],
        none, none, none⟩ : Business)).1 = 56 := by
  have h0 : bucketCount [5, 5, 5, 5, 5] 0 = 0 := by decide
  have h1 : bucketCount [5, 5, 5, 5, 5] 1 = 0 := by decide
  have h2 : bucketCount [5, 5, 5, 5, 5] 2 = 0 := by decide
  have h3 : bucketCount [5, 5, 5, 5, 5] 3 = 0 := by decide
  have h4 : bucketCount [5, 5, 5, 5, 5] 4 = 5 := by decide
  have hR : rawAverageOf [5, 5, 5, 5, 5] = 5 := by
    norm_num [rawAverageOf]
  have hB : bayesOf 3 5 5 = 3.5 := by
    norm_num [bayesOf, m]
  have hE : entropyNormalizedOf [5, 5, 5, 5, 5] = 0 := by
    norm_num [entropyNormalizedOf, entropyOf, Finset.sum_range_succ,
      h0, h1, h2, h3, h4, Real.log_one]
  refine ⟨hR, hB, hE, ?_⟩
  rw [calculateTrustScore_ne_nil 3 _ (by simp)]
  have hmap : (([⟨5, 1⟩, ⟨5, 2⟩, ⟨5, 3⟩, ⟨5, 4⟩, ⟨5, 5⟩] : List Rating).map
      (fun r => r.score)) = [5, 5, 5, 5, 5] := rfl
  have hT : trustValue 3 [5, 5, 5, 5, 5] = 56 := by
    rw [trustValue]
    norm_num [hR, hE, hB]
  simp only [hmap, hT]
  norm_num [round_eq]

/-- C3: on a zero-rating collection the code does NOT raise an
`InsufficientDataError` — there is no error path at all; both
`calculateVolatility` (empty ratings list) and `computeGlobalAverage`
(dataset with zero ratings total) silently compute `0/0` and return NaN
(modelled `none`).  This theorem evaluates the code at the failing inputs
the claim is about. -/
theorem empty_collection_divisions_yield_nan :
    calculateVolatility
      (⟨"Empty Cafe", "cafe", [], none, none, none⟩ : Business) = none ∧
    computeGlobalAverage
      [(⟨"Empty Cafe", "cafe", [], none, none, none⟩ : Business)] = none := by
  constructor
  · simp [calculateVolatility]
  · simp [computeGlobalAverage]

/-- C4 counterexample: on a business with an empty ratings list,
`calculateTrustScore` returns before writing any cache field, so the claim
that the evaluation "yields rawAverage 0 and entropyNormalized 0" is false:
both fields stay absent (`none`), not `0`. -/
theorem empty_ratings_fields_not_written :
    ¬ ((calculateTrustScore 3
          (⟨"Empty Cafe", "cafe", [], none, none, none⟩ : Business)).1 = 0 ∧
       ((calculateTrustScore 3
          (⟨"Empty Cafe", "cafe", [], none, none, none⟩ : Business)).2).rawAverage
          = some 0 ∧
       ((calculateTrustScore 3
          (⟨"Empty Cafe", "cafe", [], none, none, none⟩ : Business)).2).entropy
          = some 0) := by
  simp [calculateTrustScore]

/-- C4 (amended): for every business with an empty ratings list, the trust
evaluation returns score 0 (a defined degenerate result, not an error) and
leaves the business record unchanged — in particular the `rawAverage` and
`entropy` cache fields are not written. -/
theorem empty_ratings_degenerate (g : ℝ) (b : Business)
    (h : b.ratings = []) :
    calculateTrustScore g b = (0, b) :=
  calculateTrustScore_nil g b h

/-- Witness for C4 (amended) at a concrete empty business. -/
theorem empty_ratings_degenerate_witness :
    calculateTrustScore 3
        (⟨"Empty Cafe", "cafe", [], none, none, none⟩ : Business) =
      (0, (⟨"Empty Cafe", "cafe", [], none, none, none⟩ : Business)) :=
  empty_ratings_degenerate 3 _ rfl

/-- C8: evaluating the full score (trust score and fraud confidence) a
second time, on the state the first evaluation leaves behind and with the
same global average, yields identical results and an identical state. -/
theorem scoreBusiness_idempotent (g : ℝ) (b : Business) :
    scoreBusiness g ((scoreBusiness g b).2) = scoreBusiness g b := by
  have h := calculateTrustScore_idem g b
  simp [scoreBusiness, neuralNetworkPredict_snd, h]

/-- C9: on a business with an empty ratings list, `neuralNetworkPredict`
does not return a number in `[0,1]`: `calculateTrustScore` returns early
without caching entropy, `extractFeatures` divides `0/0` for
`fiveStarRatio`, and the NaN propagates through both hidden layers, the
sigmoid and the clamp to the final result (`none` models NaN). -/
theorem neuralNetworkPredict_empty_nan (g : ℝ) (b : Business)
    (h : b.ratings = []) :
    (neuralNetworkPredict g b).1 = none := by
  have e := calculateTrustScore_nil g b h
  simp [neuralNetworkPredict, e, extractFeatures, h, calculateVolatility]

/-- Witness for C9 at a concrete zero-rating business. -/
theorem neuralNetworkPredict_empty_nan_witness :
    (neuralNetworkPredict 3
      (⟨"Ghost Diner", "restaurant", [], none, none, none⟩ : Business)).1
      = none :=
  neuralNetworkPredict_empty_nan 3 _ rfl

/-- C10: scoring leaves the business's identity and raw data unchanged:
both `calculateTrustScore` and `neuralNetworkPredict` (which also runs
`calculateVolatility` and `extractFeatures`; the latter sorts a copy of the
ratings) preserve `name`, `category` and the `ratings` sequence, writing
only the derived cache fields. -/
theorem scoring_preserves_identity (g : ℝ) (b : Business) :
    (((calculateTrustScore g b).2).name = b.name ∧
     ((calculateTrustScore g b).2).category = b.category ∧
     ((calculateTrustScore g b).2).ratings = b.ratings) ∧
    (((neuralNetworkPredict g b).2).name = b.name ∧
     ((neuralNetworkPredict g b).2).category = b.category ∧
     ((neuralNetworkPredict g b).2).ratings = b.ratings) := by
  refine ⟨calculateTrustScore_snd_fields g b, ?_⟩
  rw [neuralNetworkPredict_snd]
  exact calculateTrustScore_snd_fields g b

end

end TrustShield
